import Mathlib

/-
  Verification of the JavaScript backend code generator (JSBackend.cpp).

  Shallow embedding: the relevant C++ functions of the JSWriter pass are
  translated into executable Lean definitions (std::string becomes String or
  List Char, std::map/std::vector become association lists / lists, unsigned
  becomes Nat, int64_t becomes Int, fatal errors / failing assertions become
  Option.none).  While-loops are encoded either structurally or with an
  explicit fuel argument chosen large enough; lemmas characterize the loops.
-/

set_option maxRecDepth 4096

/-! ## Switch density heuristic (considerConditionVar, JSBackend.cpp) -/

/-- Model of the switch path of `considerConditionVar`.  The input is the
list of the sign-extended 64-bit case values of the switch.  The single
source loop updates both `Minn` (initialized to INT64_MAX) and `Maxx`
(initialized to INT64_MIN); we fold over the case list with the pair.
The result is `true` exactly when the source returns the switch's condition
(switch mode) rather than NULL (if/else mode).  The `||` chain of the source
short-circuits, which the nested ifs reproduce; `Int.div` is C++ truncating
division. -/
def considerConditionVarSwitch (cases : List Int) : Bool :=
  let mm := cases.foldl
    (fun (p : Int × Int) c =>
      (if c < p.1 then c else p.1, if c > p.2 then c else p.2))
    (9223372036854775807, -9223372036854775808)
  let range : Int := mm.2 - mm.1
  let num : Int := cases.length
  if num < 5 then false
  else if range > 10*1024 then false
  else if Int.tdiv range num > 1024 then false
  else true

/-- The pair fold of `considerConditionVarSwitch` splits into two
independent folds. -/
theorem minMaxFold_split (cases : List Int) (a b : Int) :
    cases.foldl
      (fun (p : Int × Int) c =>
        (if c < p.1 then c else p.1, if c > p.2 then c else p.2)) (a, b) =
    (cases.foldl (fun m c => if c < m then c else m) a,
     cases.foldl (fun m c => if c > m then c else m) b) := by
  induction cases generalizing a b with
  | nil => rfl
  | cons h t ih => simp only [List.foldl_cons, ih]

/-- Characterization of the running-minimum fold. -/
theorem foldl_min_char (l : List Int) (a : Int) :
    (l.foldl (fun m c => if c < m then c else m) a = a ∨
      l.foldl (fun m c => if c < m then c else m) a ∈ l) ∧
    l.foldl (fun m c => if c < m then c else m) a ≤ a ∧
    ∀ x ∈ l, l.foldl (fun m c => if c < m then c else m) a ≤ x := by
  induction l generalizing a with
  | nil => simp
  | cons h t ih =>
    simp only [List.foldl_cons, List.mem_cons]
    rcases ih (if h < a then h else a) with ⟨hmem, hle, hall⟩
    constructor
    · rcases hmem with hmem | hmem
      · rw [hmem]; split
        · exact Or.inr (Or.inl rfl)
        · exact Or.inl rfl
      · exact Or.inr (Or.inr hmem)
    · constructor
      · refine le_trans hle ?_
        split
        · omega
        · exact le_rfl
      · intro x hx
        rcases hx with hx | hx
        · subst hx
          refine le_trans hle ?_
          split
          · exact le_rfl
          · omega
        · exact hall x hx

/-- Characterization of the running-maximum fold. -/
theorem foldl_max_char (l : List Int) (a : Int) :
    (l.foldl (fun m c => if c > m then c else m) a = a ∨
      l.foldl (fun m c => if c > m then c else m) a ∈ l) ∧
    a ≤ l.foldl (fun m c => if c > m then c else m) a ∧
    ∀ x ∈ l, x ≤ l.foldl (fun m c => if c > m then c else m) a := by
  induction l generalizing a with
  | nil => simp
  | cons h t ih =>
    simp only [List.foldl_cons, List.mem_cons]
    rcases ih (if h > a then h else a) with ⟨hmem, hle, hall⟩
    constructor
    · rcases hmem with hmem | hmem
      · rw [hmem]; split
        · exact Or.inr (Or.inl rfl)
        · exact Or.inl rfl
      · exact Or.inr (Or.inr hmem)
    · constructor
      · refine le_trans ?_ hle
        split
        · omega
        · exact le_rfl
      · intro x hx
        rcases hx with hx | hx
        · subst hx
          refine le_trans ?_ hle
          split
          · exact le_rfl
          · omega
        · exact hall x hx

/-- With `m` the minimum case value and `M` the maximum case value, the
minimum fold evaluates to `m` (all case values are int64, hence at most the
INT64_MAX sentinel). -/
theorem foldl_min_eq (l : List Int) (m : Int) (hm : m ∈ l)
    (hmle : ∀ x ∈ l, m ≤ x)
    (hbound : ∀ x ∈ l, -9223372036854775808 ≤ x ∧ x ≤ 9223372036854775807) :
    l.foldl (fun m c => if c < m then c else m) 9223372036854775807 = m := by
  rcases foldl_min_char l 9223372036854775807 with ⟨hmem, hle, hall⟩
  rcases hmem with hmem | hmem
  · have h1 := hall m hm
    have h2 := (hbound m hm).2
    omega
  · exact le_antisymm (hall m hm) (hmle _ hmem)

/-- With `M` the maximum case value, the maximum fold evaluates to `M`. -/
theorem foldl_max_eq (l : List Int) (M : Int) (hM : M ∈ l)
    (hMle : ∀ x ∈ l, x ≤ M)
    (hbound : ∀ x ∈ l, -9223372036854775808 ≤ x ∧ x ≤ 9223372036854775807) :
    l.foldl (fun m c => if c > m then c else m) (-9223372036854775808) = M := by
  rcases foldl_max_char l (-9223372036854775808) with ⟨hmem, hle, hall⟩
  rcases hmem with hmem | hmem
  · have h1 := hall M hM
    have h2 := (hbound M hM).1
    omega
  · exact le_antisymm (hMle _ hmem) (hall M hM)

/-- C5: For every IR switch terminator, the relooper is given a condition
variable (switch mode) if and only if the number of cases is at least 5,
the difference between the maximum and minimum case values is at most
10240, and that difference divided by the number of cases is at most 1024.
(`m` and `M` are the minimum and maximum case values; all case values are
64-bit, matching the source's `getSExtValue`.) -/
theorem claim_C5 (cases : List Int) (m M : Int)
    (hm : m ∈ cases) (hmle : ∀ x ∈ cases, m ≤ x)
    (hM : M ∈ cases) (hMle : ∀ x ∈ cases, x ≤ M)
    (hbound : ∀ x ∈ cases, -9223372036854775808 ≤ x ∧ x ≤ 9223372036854775807) :
    considerConditionVarSwitch cases = true ↔
      (5 ≤ cases.length ∧ M - m ≤ 10240 ∧
        (M - m) / (cases.length : Int) ≤ 1024) := by
  have hmM : m ≤ M := hMle m hm
  have key : considerConditionVarSwitch cases =
      (if (cases.length : Int) < 5 then false
       else if M - m > 10*1024 then false
       else if Int.tdiv (M - m) (cases.length : Int) > 1024 then false
       else true) := by
    simp only [considerConditionVarSwitch]
    rw [minMaxFold_split, foldl_min_eq cases m hm hmle hbound,
        foldl_max_eq cases M hM hMle hbound]
  rw [key]
  rcases le_or_lt 5 (cases.length : Int) with h5 | h5
  · rw [if_neg (by omega)]
    have h0 : (0:Int) ≤ M - m := by omega
    have hlen0 : (0:Int) ≤ (cases.length : Int) := by positivity
    rw [Int.tdiv_eq_ediv h0 hlen0]
    split_ifs with h10 hdiv
    · simp only [Bool.false_eq_true, false_iff]
      rintro ⟨-, hb, -⟩
      omega
    · simp only [Bool.false_eq_true, false_iff]
      rintro ⟨-, -, hc⟩
      linarith
    · simp only [true_iff]
      refine ⟨by omega, by omega, by linarith⟩
  · rw [if_pos (by omega)]
    simp only [Bool.false_eq_true, false_iff]
    rintro ⟨ha, -, -⟩
    omega

/-- Witness for C5 at a concrete dense switch with five cases. -/
theorem claim_C5_witness :
    considerConditionVarSwitch [0, 1, 2, 3, 4] = true :=
  (claim_C5 [0, 1, 2, 3, 4] 0 4 (by decide) (by decide) (by decide)
    (by decide) (by decide)).mpr (by refine ⟨by decide, by decide, by decide⟩)

/-! ## Integer multiplication lowering (JSWriter::getIMul) -/

/-- Model of getIMul's power-of-two detection loop
(`while (C) \x7b if ((C & 1) && (C != 1)) break; C >>= 1; Shifts++;
if (C == 0) return OtherStr + "<<" + utostr(Shifts-1); \x7d`).
State `(c, shifts)`: `c` is the current value, `shifts` the number of
shifts performed so far (so when `c` reaches 1, the source performs one
final shift and returns `Shifts-1 = shifts`).  `some k` means the source
returned a shift by `k`; `none` means the loop broke or exited and control
falls through.  The fuel (first argument) bounds the iteration count; `c`
itself is always sufficient since `c` at least halves each round. -/
def shiftLoopGo : Nat → Nat → Nat → Option Nat
  | _, 0, _ => none
  | _, 1, shifts => some shifts
  | 0, _+2, _ => none
  | fuel+1, c+2, shifts =>
      if (c+2) % 2 = 1 then none else shiftLoopGo fuel ((c+2)/2) (shifts+1)

/-- Entry point of the power-of-two detection loop, with sufficient fuel. -/
def shiftLoop (c : Nat) : Option Nat := shiftLoopGo c c 0

/-- Model of the constant path of `JSWriter::getIMul`: `c` is the
zero-extended value of the constant operand (`CI->getZExtValue()`),
`otherStr` the lowered expression of the other operand, `s1`/`s2` the
lowered expressions of both operands in order. -/
def getIMulConst (c : Nat) (otherStr s1 s2 : String) : String :=
  if c = 0 then "0"
  else if c = 1 then otherStr
  else match shiftLoop c with
    | some k => otherStr ++ "<<" ++ toString k
    | none =>
      if c < 1048576 then "(" ++ otherStr ++ "*" ++ toString c ++ ")|0"
      else "Math_imul(" ++ s1 ++ ", " ++ s2 ++ ")|0"

/-- Model of `JSWriter::getIMul`.  `c1`/`c2` are the numeric values of the
operands when they are `ConstantInt`s (the source tries `V1` first), and
`s1`/`s2` their lowered expressions. -/
def getIMul (c1 : Option Nat) (s1 : String) (c2 : Option Nat) (s2 : String) :
    String :=
  match c1, c2 with
  | some c, _ => getIMulConst c s2 s1 s2
  | none, some c => getIMulConst c s1 s1 s2
  | none, none => "Math_imul(" ++ s1 ++ ", " ++ s2 ++ ")|0"

/-- The detection loop finds every power of two and returns its exponent. -/
theorem shiftLoopGo_pow (k : Nat) :
    ∀ fuel s, 2^k ≤ fuel + 1 → shiftLoopGo fuel (2^k) s = some (s + k) := by
  induction k with
  | zero => intro fuel s _; cases fuel <;> simp [shiftLoopGo]
  | succ k ih =>
    intro fuel s hfuel
    have hge : 2 ≤ 2^(k+1) := by
      have : 2^1 ≤ 2^(k+1) := Nat.pow_le_pow_right (by omega) (by omega)
      simpa using this
    cases fuel with
    | zero => omega
    | succ f =>
      have hsplit : 2^(k+1) = (2^(k+1) - 2) + 2 := by omega
      rw [hsplit]
      simp only [shiftLoopGo]
      rw [← hsplit]
      have heven : 2^(k+1) % 2 = 0 := by
        have : 2^(k+1) = 2^k * 2 := by ring
        omega
      rw [if_neg (by omega)]
      have hhalf : 2^(k+1) / 2 = 2^k := by
        have : 2^(k+1) = 2^k * 2 := by ring
        omega
      rw [hhalf]
      have hk1 : (1:Nat) ≤ 2^k := Nat.one_le_two_pow
      have h2k : 2^(k+1) = 2 * 2^k := by ring
      have : 2^k ≤ f + 1 := by omega
      rw [ih f (s+1) this]
      have : s + 1 + k = s + (k + 1) := by omega
      rw [this]

/-- The detection loop rejects every value that is not a power of two. -/
theorem shiftLoopGo_not_pow :
    ∀ fuel c s, (∀ k, c ≠ 2^k) → shiftLoopGo fuel c s = none := by
  intro fuel
  induction fuel with
  | zero =>
    intro c s h
    match c with
    | 0 => rfl
    | 1 => exact absurd (pow_zero 2).symm (h 0)
    | c+2 => rfl
  | succ f ih =>
    intro c s h
    match c with
    | 0 => rfl
    | 1 => exact absurd (pow_zero 2).symm (h 0)
    | c+2 =>
      simp only [shiftLoopGo]
      split
      · rfl
      · rename_i hodd
        refine ih _ _ ?_
        intro k hk
        have heven : (c+2) % 2 = 0 := by omega
        have : c + 2 = 2^(k+1) := by
          have h2 : 2 * ((c+2)/2) = c + 2 := by omega
          have : 2^(k+1) = 2 * 2^k := by ring
          omega
        exact h (k+1) this

/-- C7: For every integer multiplication instruction, the emitted expression
is `Math_imul(a,b)|0` unless one operand is a constant `c`, in which case:
`c = 0` yields the literal `0`, `c = 1` yields the other operand's
expression unchanged, `c` a power of two yields a left-shift of the other
operand by `log2(c)`, and any other `c < 2^20` yields `(other*c)|0`.
The conjuncts cover both operand orders (the source tries `V1` first and
otherwise `V2`; the non-constant operand's expression is `otherStr`). -/
theorem claim_C7 (c k : Nat) (copt : Option Nat) (s1 s2 : String) :
    (getIMul none s1 none s2 = "Math_imul(" ++ s1 ++ ", " ++ s2 ++ ")|0") ∧
    (c = 0 → getIMul (some c) s1 copt s2 = "0" ∧
             getIMul none s1 (some c) s2 = "0") ∧
    (c = 1 → getIMul (some c) s1 copt s2 = s2 ∧
             getIMul none s1 (some c) s2 = s1) ∧
    (c = 2^k → 2 ≤ c →
      getIMul (some c) s1 copt s2 = s2 ++ "<<" ++ toString k ∧
      getIMul none s1 (some c) s2 = s1 ++ "<<" ++ toString k) ∧
    ((∀ j, c ≠ 2^j) → c ≠ 0 → c < 1048576 →
      getIMul (some c) s1 copt s2 = "(" ++ s2 ++ "*" ++ toString c ++ ")|0" ∧
      getIMul none s1 (some c) s2 = "(" ++ s1 ++ "*" ++ toString c ++ ")|0") ∧
    ((∀ j, c ≠ 2^j) → 1048576 ≤ c →
      getIMul (some c) s1 copt s2 = "Math_imul(" ++ s1 ++ ", " ++ s2 ++ ")|0" ∧
      getIMul none s1 (some c) s2 = "Math_imul(" ++ s1 ++ ", " ++ s2 ++ ")|0") := by
  refine ⟨rfl, ?_, ?_, ?_, ?_, ?_⟩
  · rintro rfl
    exact ⟨rfl, rfl⟩
  · rintro rfl
    exact ⟨rfl, rfl⟩
  · rintro rfl h2
    have hloop : shiftLoop (2^k) = some k := by
      have := shiftLoopGo_pow k (2^k) 0 (by omega)
      simpa [shiftLoop] using this
    have hne0 : ¬ (2^k = 0) := by omega
    have hne1 : ¬ (2^k = 1) := by omega
    constructor <;>
      simp only [getIMul, getIMulConst, if_neg hne0, if_neg hne1, hloop]
  · intro hnp hne0 hlt
    have hloop : shiftLoop c = none := shiftLoopGo_not_pow c c 0 hnp
    have hne1 : ¬ (c = 1) := by have := hnp 0; simpa using this
    constructor <;>
      simp only [getIMul, getIMulConst, if_neg hne0, if_neg hne1, hloop,
        if_pos hlt]
  · intro hnp hge
    have hloop : shiftLoop c = none := shiftLoopGo_not_pow c c 0 hnp
    have hne0 : ¬ (c = 0) := by omega
    have hne1 : ¬ (c = 1) := by have := hnp 0; simpa using this
    have hnlt : ¬ (c < 1048576) := by omega
    constructor <;>
      simp only [getIMul, getIMulConst, if_neg hne0, if_neg hne1, hloop,
        if_neg hnlt]

/-- Witness for C7: a multiplication by the constant 8 is emitted as a
left-shift by 3. -/
theorem claim_C7_witness :
    getIMul (some 8) "$a" none "$b" = "$b<<3" :=
  ((claim_C7 8 3 none "$a" "$b").2.2.2.1 (by decide) (by decide)).1

/-! ## Load and store lowering (JSWriter::getLoad / JSWriter::getStore) -/

/-- Scalar category of the accessed type: `intLike` models
`T->isIntegerTy() || T->isPointerTy()`, `floatLike` models
`T->isFloatingPointTy()`. -/
inductive ScalarKind where
  | intLike
  | floatLike
deriving DecidableEq

/-- Model of `getCast` restricted to the float/double scalar case with the
default `ASM_SIGNED` mode, as invoked by `getLoad` for the unaligned
4-byte float tail: `Math_fround(s)` when precise-f32 is enabled, else
`+s`. -/
def getCastFloatTy (preciseF32 : Bool) (s : String) : String :=
  if preciseF32 then "Math_fround(" ++ s ++ ")" else "+" ++ s

/-- The abort comment appended to loads from absolute addresses. -/
def abortLoadStr : String := "; abort() /* segfault, load from absolute addr */"

/-- Model of `JSWriter::getLoad`.  Context-dependent strings are
parameters: `assign` is `getAssign(I)` (the `"$name = "` prefix), `ps` is
`getValueAsStr(P)`, `ptrLoad` is `getPtrLoad(P)`, `isAbs` is
`isAbsolute(P)`; `bytes` is `DL->getTypeAllocSize(T)`, `alignment` the
load's alignment, `kind` the scalar category of `T`, and `sep` the
separator character (a one-character string, `";"` at every load site).
`none` models the failing `assert(0 && "bad ... store")` defaults. -/
def getLoad (assign ps ptrLoad : String) (isAbs : Bool)
    (bytes alignment : Nat) (kind : ScalarKind) (preciseF32 : Bool)
    (sep : String) : Option String :=
  if bytes ≤ alignment ∨ alignment = 0 then
    some (assign ++ ptrLoad ++ (if isAbs then abortLoadStr else ""))
  else
    match bytes, alignment, kind with
    | 8, 4, _ => some
        ("HEAP32[tempDoublePtr>>2]=HEAP32[" ++ ps ++ ">>2]" ++ sep ++
         "HEAP32[tempDoublePtr+4>>2]=HEAP32[" ++ ps ++ "+4>>2]" ++
         sep ++ assign ++ "+HEAPF64[tempDoublePtr>>3]")
    | 8, 2, _ => some
        ("HEAP16[tempDoublePtr>>1]=HEAP16[" ++ ps ++ ">>1]" ++ sep ++
         "HEAP16[tempDoublePtr+2>>1]=HEAP16[" ++ ps ++ "+2>>1]" ++ sep ++
         "HEAP16[tempDoublePtr+4>>1]=HEAP16[" ++ ps ++ "+4>>1]" ++ sep ++
         "HEAP16[tempDoublePtr+6>>1]=HEAP16[" ++ ps ++ "+6>>1]" ++
         sep ++ assign ++ "+HEAPF64[tempDoublePtr>>3]")
    | 8, 1, _ => some
        ("HEAP8[tempDoublePtr>>0]=HEAP8[" ++ ps ++ ">>0]" ++ sep ++
         "HEAP8[tempDoublePtr+1>>0]=HEAP8[" ++ ps ++ "+1>>0]" ++ sep ++
         "HEAP8[tempDoublePtr+2>>0]=HEAP8[" ++ ps ++ "+2>>0]" ++ sep ++
         "HEAP8[tempDoublePtr+3>>0]=HEAP8[" ++ ps ++ "+3>>0]" ++ sep ++
         "HEAP8[tempDoublePtr+4>>0]=HEAP8[" ++ ps ++ "+4>>0]" ++ sep ++
         "HEAP8[tempDoublePtr+5>>0]=HEAP8[" ++ ps ++ "+5>>0]" ++ sep ++
         "HEAP8[tempDoublePtr+6>>0]=HEAP8[" ++ ps ++ "+6>>0]" ++ sep ++
         "HEAP8[tempDoublePtr+7>>0]=HEAP8[" ++ ps ++ "+7>>0]" ++
         sep ++ assign ++ "+HEAPF64[tempDoublePtr>>3]")
    | 4, 2, ScalarKind.intLike => some
        (assign ++ "HEAPU16[" ++ ps ++ ">>1]|" ++
         "(HEAPU16[" ++ ps ++ "+2>>1]<<16)")
    | 4, 1, ScalarKind.intLike => some
        (assign ++ "HEAPU8[" ++ ps ++ ">>0]|" ++
         "(HEAPU8[" ++ ps ++ "+1>>0]<<8)|" ++
         "(HEAPU8[" ++ ps ++ "+2>>0]<<16)|" ++
         "(HEAPU8[" ++ ps ++ "+3>>0]<<24)")
    | 4, 2, ScalarKind.floatLike => some
        ("HEAP16[tempDoublePtr>>1]=HEAP16[" ++ ps ++ ">>1]" ++ sep ++
         "HEAP16[tempDoublePtr+2>>1]=HEAP16[" ++ ps ++ "+2>>1]" ++
         sep ++ assign ++ getCastFloatTy preciseF32 "HEAPF32[tempDoublePtr>>2]")
    | 4, 1, ScalarKind.floatLike => some
        ("HEAP8[tempDoublePtr>>0]=HEAP8[" ++ ps ++ ">>0]" ++ sep ++
         "HEAP8[tempDoublePtr+1>>0]=HEAP8[" ++ ps ++ "+1>>0]" ++ sep ++
         "HEAP8[tempDoublePtr+2>>0]=HEAP8[" ++ ps ++ "+2>>0]" ++ sep ++
         "HEAP8[tempDoublePtr+3>>0]=HEAP8[" ++ ps ++ "+3>>0]" ++
         sep ++ assign ++ getCastFloatTy preciseF32 "HEAPF32[tempDoublePtr>>2]")
    | 2, 1, _ => some
        (assign ++ "HEAPU8[" ++ ps ++ ">>0]|" ++
         "(HEAPU8[" ++ ps ++ "+1>>0]<<8)")
    | _, _, _ => none

/-- Model of `JSWriter::getStore`.  `ptrUse` is `getPtrUse(P)`, `ps` is
`getValueAsStr(P)`, `vs` the lowered stored value; the leading
`assert(sep == ';')` is the `none` guard. -/
def getStore (ptrUse ps vs : String) (bytes alignment : Nat)
    (kind : ScalarKind) (sep : String) : Option String :=
  if sep ≠ ";" then none
  else if bytes ≤ alignment ∨ alignment = 0 then
    some (ptrUse ++ " = " ++ vs ++
      (if alignment = 536870912 then "; abort() /* segfault */" else ""))
  else
    match bytes, alignment, kind with
    | 8, 4, _ => some
        ("HEAPF64[tempDoublePtr>>3]=" ++ vs ++ ";" ++
         "HEAP32[" ++ ps ++ ">>2]=HEAP32[tempDoublePtr>>2];" ++
         "HEAP32[" ++ ps ++ "+4>>2]=HEAP32[tempDoublePtr+4>>2]")
    | 8, 2, _ => some
        ("HEAPF64[tempDoublePtr>>3]=" ++ vs ++ ";" ++
         "HEAP16[" ++ ps ++ ">>1]=HEAP16[tempDoublePtr>>1];" ++
         "HEAP16[" ++ ps ++ "+2>>1]=HEAP16[tempDoublePtr+2>>1];" ++
         "HEAP16[" ++ ps ++ "+4>>1]=HEAP16[tempDoublePtr+4>>1];" ++
         "HEAP16[" ++ ps ++ "+6>>1]=HEAP16[tempDoublePtr+6>>1]")
    | 8, 1, _ => some
        ("HEAPF64[tempDoublePtr>>3]=" ++ vs ++ ";" ++
         "HEAP8[" ++ ps ++ ">>0]=HEAP8[tempDoublePtr>>0];" ++
         "HEAP8[" ++ ps ++ "+1>>0]=HEAP8[tempDoublePtr+1>>0];" ++
         "HEAP8[" ++ ps ++ "+2>>0]=HEAP8[tempDoublePtr+2>>0];" ++
         "HEAP8[" ++ ps ++ "+3>>0]=HEAP8[tempDoublePtr+3>>0];" ++
         "HEAP8[" ++ ps ++ "+4>>0]=HEAP8[tempDoublePtr+4>>0];" ++
         "HEAP8[" ++ ps ++ "+5>>0]=HEAP8[tempDoublePtr+5>>0];" ++
         "HEAP8[" ++ ps ++ "+6>>0]=HEAP8[tempDoublePtr+6>>0];" ++
         "HEAP8[" ++ ps ++ "+7>>0]=HEAP8[tempDoublePtr+7>>0]")
    | 4, 2, ScalarKind.intLike => some
        ("HEAP16[" ++ ps ++ ">>1]=" ++ vs ++ "&65535;" ++
         "HEAP16[" ++ ps ++ "+2>>1]=" ++ vs ++ ">>>16")
    | 4, 1, ScalarKind.intLike => some
        ("HEAP8[" ++ ps ++ ">>0]=" ++ vs ++ "&255;" ++
         "HEAP8[" ++ ps ++ "+1>>0]=(" ++ vs ++ ">>8)&255;" ++
         "HEAP8[" ++ ps ++ "+2>>0]=(" ++ vs ++ ">>16)&255;" ++
         "HEAP8[" ++ ps ++ "+3>>0]=" ++ vs ++ ">>24")
    | 4, 2, ScalarKind.floatLike => some
        ("HEAPF32[tempDoublePtr>>2]=" ++ vs ++ ";" ++
         "HEAP16[" ++ ps ++ ">>1]=HEAP16[tempDoublePtr>>1];" ++
         "HEAP16[" ++ ps ++ "+2>>1]=HEAP16[tempDoublePtr+2>>1]")
    | 4, 1, ScalarKind.floatLike => some
        ("HEAPF32[tempDoublePtr>>2]=" ++ vs ++ ";" ++
         "HEAP8[" ++ ps ++ ">>0]=HEAP8[tempDoublePtr>>0];" ++
         "HEAP8[" ++ ps ++ "+1>>0]=HEAP8[tempDoublePtr+1>>0];" ++
         "HEAP8[" ++ ps ++ "+2>>0]=HEAP8[tempDoublePtr+2>>0];" ++
         "HEAP8[" ++ ps ++ "+3>>0]=HEAP8[tempDoublePtr+3>>0]")
    | 2, 1, _ => some
        ("HEAP8[" ++ ps ++ ">>0]=" ++ vs ++ "&255;" ++
         "HEAP8[" ++ ps ++ "+1>>0]=" ++ vs ++ ">>8")
    | _, _, _ => none

/-- Number of (possibly overlapping) occurrences of the pattern `pat`
in a character list. -/
def countOcc (pat : List Char) : List Char → Nat
  | [] => 0
  | c :: rest =>
    (if List.isPrefixOf pat (c :: rest) then 1 else 0) + countOcc pat rest

/-- C9: For every load or store whose IR alignment field is 0, the single
aligned heap-view access path is taken regardless of the access size
`bytes` (the byte-decomposed unaligned lowering is never used), because the
aligned-path condition is `Bytes <= Alignment || Alignment == 0`. -/
theorem claim_C9 (assign ps ptrLoad ptrUse vs : String) (isAbs : Bool)
    (bytes : Nat) (kind : ScalarKind) (pf : Bool) (sep : String) :
    getLoad assign ps ptrLoad isAbs bytes 0 kind pf sep =
      some (assign ++ ptrLoad ++ (if isAbs then abortLoadStr else "")) ∧
    getStore ptrUse ps vs bytes 0 kind ";" =
      some (ptrUse ++ " = " ++ vs) := by
  constructor
  · simp [getLoad]
  · simp [getStore]

/-- C6 (amended): For every IR load of type T with size B bytes and
alignment A, if A ≥ B a single heap-view access is emitted; otherwise (for
0 < A < B) the load is decomposed into B/A view accesses, assembled by
bitwise OR for integers or staged through tempDoublePtr for floats; for a
load of i32 from pointer `$p` with align 1, the emitted statement is
exactly `$r = HEAPU8[$p>>0]|(HEAPU8[$p+1>>0]<<8)|(HEAPU8[$p+2>>0]<<16)|(HEAPU8[$p+3>>0]<<24);`
(no spaces around the `|` operators).  The access counts are checked on
the concrete instance `assign = "$r = "`, `ps = "$p"`: the pointer
expression occurs exactly B/A times in each decomposed form, integer
forms never mention tempDoublePtr, and float forms do. -/
theorem claim_C6 (assign ps ptrLoad : String) (isAbs : Bool) (pf : Bool) :
    (∀ bytes alignment kind sep, bytes ≤ alignment →
      getLoad assign ps ptrLoad isAbs bytes alignment kind pf sep =
        some (assign ++ ptrLoad ++ (if isAbs then abortLoadStr else ""))) ∧
    (getLoad assign ps ptrLoad isAbs 4 1 ScalarKind.intLike pf ";" =
      some (assign ++ "HEAPU8[" ++ ps ++ ">>0]|" ++
        "(HEAPU8[" ++ ps ++ "+1>>0]<<8)|" ++
        "(HEAPU8[" ++ ps ++ "+2>>0]<<16)|" ++
        "(HEAPU8[" ++ ps ++ "+3>>0]<<24)")) ∧
    (countOcc "$p".data ((getLoad "$r = " "$p" "" false 8 4
      ScalarKind.floatLike false ";").getD "").data = 8 / 4 ∧
     countOcc "$p".data ((getLoad "$r = " "$p" "" false 8 2
      ScalarKind.floatLike false ";").getD "").data = 8 / 2 ∧
     countOcc "$p".data ((getLoad "$r = " "$p" "" false 8 1
      ScalarKind.floatLike false ";").getD "").data = 8 / 1 ∧
     countOcc "$p".data ((getLoad "$r = " "$p" "" false 4 2
      ScalarKind.intLike false ";").getD "").data = 4 / 2 ∧
     countOcc "$p".data ((getLoad "$r = " "$p" "" false 4 1
      ScalarKind.intLike false ";").getD "").data = 4 / 1 ∧
     countOcc "$p".data ((getLoad "$r = " "$p" "" false 4 2
      ScalarKind.floatLike false ";").getD "").data = 4 / 2 ∧
     countOcc "$p".data ((getLoad "$r = " "$p" "" false 4 1
      ScalarKind.floatLike false ";").getD "").data = 4 / 1 ∧
     countOcc "$p".data ((getLoad "$r = " "$p" "" false 2 1
      ScalarKind.intLike false ";").getD "").data = 2 / 1) ∧
    (countOcc "tempDoublePtr".data ((getLoad "$r = " "$p" "" false 4 1
      ScalarKind.intLike false ";").getD "").data = 0 ∧
     countOcc "tempDoublePtr".data ((getLoad "$r = " "$p" "" false 2 1
      ScalarKind.intLike false ";").getD "").data = 0 ∧
     countOcc "tempDoublePtr".data ((getLoad "$r = " "$p" "" false 4 1
      ScalarKind.floatLike false ";").getD "").data ≠ 0 ∧
     countOcc "tempDoublePtr".data ((getLoad "$r = " "$p" "" false 8 1
      ScalarKind.floatLike false ";").getD "").data ≠ 0) := by
  refine ⟨?_, rfl, ?_, ?_⟩
  · intro bytes alignment kind sep h
    simp [getLoad, h]
  · refine ⟨by decide, by decide, by decide, by decide, by decide,
      by decide, by decide, by decide⟩
  · refine ⟨by decide, by decide, by decide, by decide⟩

/-- Witness for C6 at a fully aligned 4-byte load. -/
theorem claim_C6_witness :
    getLoad "$r = " "$p" "HEAP32[$p>>2]|0" false 4 4 ScalarKind.intLike
      false ";" =
      some ("$r = " ++ "HEAP32[$p>>2]|0" ++
        (if false then abortLoadStr else "")) :=
  (claim_C6 "$r = " "$p" "HEAP32[$p>>2]|0" false false).1 4 4
    ScalarKind.intLike ";" (by decide)

/-- Counterexample for C6 as stated: the code emits the byte-decomposed
i32 load without spaces around the `|` operators, so the spec's exact
string (with spaces) differs from the emitted statement; moreover a load
with alignment 0 takes the single-access path rather than being
decomposed. -/
theorem claim_C6_counterexample :
    ((getLoad "$r = " "$p" "HEAP32[$p>>2]|0" false 4 1 ScalarKind.intLike
        false ";").getD "" ++ ";" ≠
      "$r = HEAPU8[$p>>0] | (HEAPU8[$p+1>>0]<<8) | (HEAPU8[$p+2>>0]<<16) | (HEAPU8[$p+3>>0]<<24);") ∧
    ((getLoad "$r = " "$p" "HEAP32[$p>>2]|0" false 4 1 ScalarKind.intLike
        false ";").getD "" ++ ";" =
      "$r = HEAPU8[$p>>0]|(HEAPU8[$p+1>>0]<<8)|(HEAPU8[$p+2>>0]<<16)|(HEAPU8[$p+3>>0]<<24);") ∧
    getLoad "$r = " "$p" "HEAP32[$p>>2]|0" false 4 0 ScalarKind.intLike
        false ";" =
      some ("$r = " ++ "HEAP32[$p>>2]|0" ++ "") := by
  refine ⟨by decide, by decide, by decide⟩

/-! ## Name mangling (sanitizeGlobal / sanitizeLocal, JSBackend.cpp) -/

/-- ASCII model of `isalnum` (the source applies it to name bytes). -/
def isAlnumChar (c : Char) : Bool :=
  (decide ('0' ≤ c) && decide (c ≤ '9')) ||
  (decide ('a' ≤ c) && decide (c ≤ 'z')) ||
  (decide ('A' ≤ c) && decide (c ≤ 'Z'))

/-- Model of `sanitizeGlobal`: prepend `_`, then replace every byte at
positions ≥ 1 that is neither alphanumeric nor `_` with `_`. -/
def sanitizeGlobal (s : List Char) : List Char :=
  '_' :: s.map (fun c => if isAlnumChar c || c == '_' then c else '_')

/-- Model of `halfCharToHex`. -/
def halfCharToHex (h : Nat) : Char :=
  if h ≤ 9 then Char.ofNat ('0'.toNat + h) else Char.ofNat ('A'.toNat + h - 10)

/-- Model of the body loop of `sanitizeLocal`.  Walks the original bytes
carrying the count `q` of `.`-replacements queued since the last non-`.`
illegal byte; returns the in-place-replaced body and the appended suffix
(one `Z` per queued `.` plus the two hex digits, appended at the moment
each non-`.` illegal byte is seen, in chronological order). -/
def sanLocGo : List Char → Nat → List Char × List Char
  | [], _ => ([], [])
  | c :: cs, q =>
    if isAlnumChar c || c == '_' then
      let r := sanLocGo cs q
      (c :: r.1, r.2)
    else if c == '.' then
      let r := sanLocGo cs (q+1)
      ('$' :: r.1, r.2)
    else
      let r := sanLocGo cs 0
      ('$' :: r.1,
        List.replicate q 'Z' ++
          [halfCharToHex (c.toNat / 16), halfCharToHex (c.toNat % 16)] ++ r.2)

/-- Model of `sanitizeLocal`: prepend `$`, replace the body in place, and
append the queued escape characters at the end. -/
def sanitizeLocal (s : List Char) : List Char :=
  '$' :: ((sanLocGo s 0).1 ++ (sanLocGo s 0).2)

/-- The alphabet of the mangling claim: ASCII letters, digits, `_`, `.`. -/
def allowedNameChar (c : Char) : Bool :=
  isAlnumChar c || c == '_' || c == '.'

/-- On the allowed alphabet the local loop never appends anything: the
only illegal byte is `.`, which is queued but never flushed. -/
theorem sanLocGo_allowed (s : List Char) (h : ∀ c ∈ s, allowedNameChar c) :
    ∀ q, sanLocGo s q =
      (s.map (fun c => if isAlnumChar c || c == '_' then c else '$'), []) := by
  induction s with
  | nil => intro q; rfl
  | cons c cs ih =>
    intro q
    have hc : allowedNameChar c = true := h c (List.mem_cons_self c cs)
    have hcs : ∀ x ∈ cs, allowedNameChar x := fun x hx => h x (List.mem_cons_of_mem c hx)
    by_cases hv : (isAlnumChar c || c == '_') = true
    · simp only [sanLocGo, hv, if_true, ih hcs q, List.map_cons]
    · have hvf : (isAlnumChar c || c == '_') = false := Bool.eq_false_iff.mpr hv
      have hdot : (c == '.') = true := by
        have hc2 : ((isAlnumChar c || c == '_') || (c == '.')) = true := hc
        rw [hvf] at hc2
        simpa using hc2
      simp only [sanLocGo, hv, Bool.false_eq_true, if_false, hdot, if_true,
        ih hcs (q+1), List.map_cons]

/-- The character map used by the local mangling is injective on the
allowed alphabet. -/
theorem locChar_inj (a b : Char) (ha : allowedNameChar a)
    (hb : allowedNameChar b)
    (h : (if isAlnumChar a || a == '_' then a else '$') =
         (if isAlnumChar b || b == '_' then b else '$')) : a = b := by
  by_cases hva : (isAlnumChar a || a == '_') = true <;>
    by_cases hvb : (isAlnumChar b || b == '_') = true
  · rw [if_pos hva, if_pos hvb] at h; exact h
  · rw [if_pos hva, if_neg hvb] at h
    subst h
    exact absurd hva (by decide)
  · rw [if_neg hva, if_pos hvb] at h
    exact absurd hvb (h ▸ by decide)
  · have hvaf : (isAlnumChar a || a == '_') = false := Bool.eq_false_iff.mpr hva
    have hvbf : (isAlnumChar b || b == '_') = false := Bool.eq_false_iff.mpr hvb
    have hda : a = '.' := by
      have ha2 : ((isAlnumChar a || a == '_') || (a == '.')) = true := ha
      rw [hvaf] at ha2
      exact eq_of_beq (by simpa using ha2)
    have hdb : b = '.' := by
      have hb2 : ((isAlnumChar b || b == '_') || (b == '.')) = true := hb
      rw [hvbf] at hb2
      exact eq_of_beq (by simpa using hb2)
    rw [hda, hdb]

/-- Mapping the local character map over allowed-alphabet lists is
injective. -/
theorem map_locChar_inj :
    ∀ s t : List Char, (∀ c ∈ s, allowedNameChar c) →
      (∀ c ∈ t, allowedNameChar c) →
      s.map (fun c => if isAlnumChar c || c == '_' then c else '$') =
        t.map (fun c => if isAlnumChar c || c == '_' then c else '$') →
      s = t := by
  intro s
  induction s with
  | nil =>
    intro t _ _ h
    cases t with
    | nil => rfl
    | cons b bs => simp at h
  | cons a as ih =>
    intro t hs ht h
    cases t with
    | nil => simp at h
    | cons b bs =>
      simp only [List.map_cons, List.cons_eq_cons] at h
      have h1 := locChar_inj a b (hs a (List.mem_cons_self a as))
        (ht b (List.mem_cons_self b bs)) h.1
      have h2 := ih bs (fun c hc => hs c (List.mem_cons_of_mem a hc))
        (fun c hc => ht c (List.mem_cons_of_mem b hc)) h.2
      rw [h1, h2]

/-- C4 (amended): Over input IR names containing only ASCII letters,
digits, `_`, and `.`, the LOCAL mangling (prepend `$`, keep
alphanumeric/`_`, replace each other byte with `$`, appending two hex
digits per non-`.` illegal byte plus one `Z` per earlier queued `.`) is
injective, hence uniquely invertible; the GLOBAL mangling (prepend `_`,
replace each non-alphanumeric non-`_` byte at positions ≥ 1 with `_`) is
injective only over such names that additionally contain no `.` (names
differing solely in `.` versus `_` collide).  The stated transformation
forms hold; the hex-append behavior is exhibited on `"x.a!b"`. -/
theorem claim_C4 (s t : List Char)
    (hs : ∀ c ∈ s, allowedNameChar c) (ht : ∀ c ∈ t, allowedNameChar c)
    (hne : s ≠ t) :
    sanitizeLocal s ≠ sanitizeLocal t ∧
    ((∀ c ∈ s, c ≠ '.') → (∀ c ∈ t, c ≠ '.') →
      sanitizeGlobal s ≠ sanitizeGlobal t) ∧
    sanitizeGlobal s =
      '_' :: s.map (fun c => if isAlnumChar c || c == '_' then c else '_') ∧
    sanitizeLocal s =
      '$' :: s.map (fun c => if isAlnumChar c || c == '_' then c else '$') ∧
    sanitizeLocal "x.a!b".data = "$x$a$bZ21".data := by
  refine ⟨?_, ?_, rfl, ?_, by decide⟩
  · intro heq
    apply hne
    have h1 : sanitizeLocal s =
        '$' :: s.map (fun c => if isAlnumChar c || c == '_' then c else '$') := by
      simp only [sanitizeLocal, sanLocGo_allowed s hs 0, List.append_nil]
    have h2 : sanitizeLocal t =
        '$' :: t.map (fun c => if isAlnumChar c || c == '_' then c else '$') := by
      simp only [sanitizeLocal, sanLocGo_allowed t ht 0, List.append_nil]
    rw [h1, h2, List.cons_eq_cons] at heq
    exact map_locChar_inj s t hs ht heq.2
  · intro hds hdt heq
    apply hne
    have hid : ∀ (u : List Char), (∀ c ∈ u, allowedNameChar c) →
        (∀ c ∈ u, c ≠ '.') →
        u.map (fun c => if isAlnumChar c || c == '_' then c else '_') = u := by
      intro u hu hdu
      have : ∀ c ∈ u, (if isAlnumChar c || c == '_' then c else '_') = c := by
        intro c hc
        have hall : allowedNameChar c = true := hu c hc
        by_cases hv : (isAlnumChar c || c == '_') = true
        · rw [if_pos hv]
        · have hvf : (isAlnumChar c || c == '_') = false := Bool.eq_false_iff.mpr hv
          have hc2 : ((isAlnumChar c || c == '_') || (c == '.')) = true := hall
          rw [hvf] at hc2
          exact absurd (eq_of_beq (by simpa using hc2)) (hdu c hc)
      rw [List.map_congr_left this]
      exact List.map_id u
    have h1 : sanitizeGlobal s = '_' :: s := by
      simp only [sanitizeGlobal, hid s hs hds]
    have h2 : sanitizeGlobal t = '_' :: t := by
      simp only [sanitizeGlobal, hid t ht hdt]
    rw [h1, h2, List.cons_eq_cons] at heq
    exact heq.2
  · simp only [sanitizeLocal, sanLocGo_allowed s hs 0, List.append_nil]

/-- Witness for C4: two distinct allowed-alphabet names get distinct
local manglings. -/
theorem claim_C4_witness :
    sanitizeLocal "a.b".data ≠ sanitizeLocal "ab".data :=
  (claim_C4 "a.b".data "ab".data (by decide) (by decide) (by decide)).1

/-- Counterexample for C4 as stated: the global mangling collides on the
distinct allowed-alphabet names `a.b` and `a_b` (both become `_a_b`), so
it is neither injective nor invertible over names that may contain `.`. -/
theorem claim_C4_counterexample :
    sanitizeGlobal "a.b".data = sanitizeGlobal "a_b".data ∧
    "a.b".data ≠ "a_b".data ∧
    (∀ c ∈ ("a.b".data : List Char), allowedNameChar c) ∧
    (∀ c ∈ ("a_b".data : List Char), allowedNameChar c) := by
  refine ⟨by decide, by decide, by decide, by decide⟩

/-! ## Global address allocation (JSWriter::allocateAddress /
JSWriter::getGlobalAddress) -/

/-- Association-list lookup keyed by strings (models `std::map::find`;
entries added by assignment are consed in front, so the first hit is the
current binding). -/
def assocLookup {β : Type} : List (String × β) → String → Option β
  | [], _ => none
  | (n, v) :: rest, name => if n = name then some v else assocLookup rest name

/-- A successful lookup comes from a list member. -/
theorem assocLookup_mem {β : Type} :
    ∀ (l : List (String × β)) (name : String) (v : β),
      assocLookup l name = some v → (name, v) ∈ l := by
  intro l
  induction l with
  | nil => intro name v h; simp [assocLookup] at h
  | cons p rest ih =>
    intro name v h
    rcases p with ⟨n, w⟩
    by_cases hn : n = name
    · subst hn
      simp only [assocLookup, eq_self_iff_true, if_true, Option.some_inj] at h
      obtain rfl : w = v := h
      exact List.mem_cons_self _ _
    · simp only [assocLookup, if_neg hn] at h
      exact List.mem_cons_of_mem _ (ih name v h)

/-- State of the three heap regions and the global address map.  The
regions are byte vectors (`HeapData`); `globalAddresses` maps a global's
name to its `(region-relative offset, element bit width)` pair. -/
structure GlobalsState where
  globalData8 : List Nat
  globalData32 : List Nat
  globalData64 : List Nat
  globalAddresses : List (String × (Nat × Nat))

/-- Padding loop `while (GlobalData->size() % (Bits/8) != 0)
GlobalData->push_back(0);`. -/
def padHeap (align : Nat) (l : List Nat) : List Nat :=
  l ++ List.replicate ((align - l.length % align) % align) 0

/-- Model of `JSWriter::allocateAddress` (every call site uses the default
`Bits = MEM_ALIGN_BITS = 64`).  The leading `assert(Bits == 64)` is the
first guard; the switch selects the region; the offset recorded is the
region's padded size. -/
def allocateAddress (name : String) (bits : Nat) (s : GlobalsState) :
    Option GlobalsState :=
  if bits ≠ 64 then none
  else match bits with
    | 8 =>
      let d := padHeap (bits/8) s.globalData8
      some { s with globalData8 := d,
                    globalAddresses := (name, (d.length, bits)) :: s.globalAddresses }
    | 32 =>
      let d := padHeap (bits/8) s.globalData32
      some { s with globalData32 := d,
                    globalAddresses := (name, (d.length, bits)) :: s.globalAddresses }
    | 64 =>
      let d := padHeap (bits/8) s.globalData64
      some { s with globalData64 := d,
                    globalAddresses := (name, (d.length, bits)) :: s.globalAddresses }
    | _ => none

/-- Model of `JSWriter::getGlobalAddress`: fatal lookup failure and the
asserts become `none`; the returned absolute address adds `GlobalBase` and
the sizes of the regions emitted before the global's region (regions are
emitted in order HEAP64, HEAP32, HEAP8). -/
def getGlobalAddress (globalBase : Nat) (s : GlobalsState) (name : String) :
    Option Nat :=
  match assocLookup s.globalAddresses name with
  | none => none
  | some (off, bits) =>
    if bits ≠ 64 then none
    else match bits with
      | 64 =>
        if (off + globalBase) % 8 = 0 then some (off + globalBase) else none
      | 32 =>
        if (off + globalBase) % 4 = 0 then
          some (off + globalBase + s.globalData64.length) else none
      | 8 => some (off + globalBase + s.globalData64.length +
          s.globalData32.length)
      | _ => none

/-- Sum of the sizes of the regions emitted before the region of element
width `bits` (emission order HEAP64, HEAP32, HEAP8). -/
def regionsBefore (bits : Nat) (s : GlobalsState) : Nat :=
  match bits with
  | 64 => 0
  | 32 => s.globalData64.length
  | 8 => s.globalData64.length + s.globalData32.length
  | _ => 0

/-- One step of the constant-lowering phase as it affects the globals
state: either `allocateAddress(name)` (default 64-bit region), or the
serialization of content bytes into the region just returned (HEAP64 at
every call site). -/
inductive GlobalOp where
  | alloc (name : String)
  | pushData (bytes : List Nat)

/-- Apply one operation. -/
def applyGlobalOp (s : GlobalsState) (op : GlobalOp) : Option GlobalsState :=
  match op with
  | GlobalOp.alloc name => allocateAddress name 64 s
  | GlobalOp.pushData bs => some { s with globalData64 := s.globalData64 ++ bs }

/-- Run a sequence of operations from the empty state. -/
def runGlobalOps (ops : List GlobalOp) : Option GlobalsState :=
  ops.foldl (fun acc op => acc.bind (fun s => applyGlobalOp s op))
    (some ⟨[], [], [], []⟩)

/-- Invariant: every recorded global address is 64-bit and 8-byte
aligned within its region. -/
def goodAddresses (s : GlobalsState) : Prop :=
  ∀ p ∈ s.globalAddresses, (p.2).2 = 64 ∧ (p.2).1 % 8 = 0

/-- The padding loop makes the region size a multiple of 8. -/
theorem padHeap_len (l : List Nat) : (padHeap 8 l).length % 8 = 0 := by
  simp only [padHeap, List.length_append, List.length_replicate]
  omega

/-- Folding from a failed state stays failed. -/
theorem foldl_bind_none (rest : List GlobalOp) :
    List.foldl (fun acc op => acc.bind (fun s => applyGlobalOp s op))
      (none : Option GlobalsState) rest = none := by
  induction rest with
  | nil => rfl
  | cons r rs ih =>
    simp only [List.foldl_cons, Option.none_bind]
    exact ih

/-- The invariant is preserved by every operation sequence. -/
theorem runGlobalOps_good :
    ∀ (ops : List GlobalOp) (s0 : GlobalsState), goodAddresses s0 →
      ∀ s, (ops.foldl (fun acc op => acc.bind (fun s => applyGlobalOp s op))
        (some s0)) = some s → goodAddresses s := by
  intro ops
  induction ops with
  | nil =>
    intro s0 h0 s hs
    simp only [List.foldl_nil, Option.some_inj] at hs
    exact hs ▸ h0
  | cons op rest ih =>
    intro s0 h0 s hs
    simp only [List.foldl_cons, Option.some_bind] at hs
    cases hop : applyGlobalOp s0 op with
    | none =>
      rw [hop, foldl_bind_none] at hs
      exact absurd hs (by simp)
    | some s1 =>
      rw [hop] at hs
      refine ih s1 ?_ s hs
      cases op with
      | alloc name =>
        simp only [applyGlobalOp, allocateAddress] at hop
        rw [if_neg (by omega)] at hop
        simp only [Option.some_inj] at hop
        intro p hp
        rw [← hop] at hp
        simp only [List.mem_cons] at hp
        rcases hp with hp | hp
        · subst hp
          exact ⟨rfl, padHeap_len s0.globalData64⟩
        · exact h0 p hp
      | pushData bs =>
        simp only [applyGlobalOp, Option.some_inj] at hop
        intro p hp
        rw [← hop] at hp
        exact h0 p hp

/-- C2: For every defined global `G` that has been allocated,
`getGlobalAddress(G)` returns a value congruent to 0 modulo `width/8`
(`width` being `G`'s recorded element bit width), and the returned
absolute address equals `G`'s region-relative offset plus `GlobalBase`
plus the sizes of the regions emitted before `G`'s region (regions
ordered HEAP64, HEAP32, HEAP8).  `GlobalBase` must itself be 8-byte
aligned for the source's alignment assertion to pass (its default is 8). -/
theorem claim_C2 (ops : List GlobalOp) (s : GlobalsState) (globalBase : Nat)
    (hrun : runGlobalOps ops = some s) (hbase : globalBase % 8 = 0)
    (name : String) (off bits : Nat)
    (hlook : assocLookup s.globalAddresses name = some (off, bits)) :
    getGlobalAddress globalBase s name =
      some (off + globalBase + regionsBefore bits s) ∧
    (off + globalBase + regionsBefore bits s) % (bits / 8) = 0 := by
  have hgood : goodAddresses s :=
    runGlobalOps_good ops ⟨[], [], [], []⟩ (by intro p hp; simp at hp) s hrun
  have hmem := assocLookup_mem s.globalAddresses name (off, bits) hlook
  have hinv := hgood (name, (off, bits)) hmem
  rcases hinv with ⟨h64, hoff⟩
  simp only at h64 hoff
  subst h64
  constructor
  · simp only [getGlobalAddress, hlook]
    rw [if_neg (by omega)]
    simp only [regionsBefore]
    rw [if_pos (by omega)]
    norm_num
  · simp only [regionsBefore]
    omega

/-- Witness for C2: allocate one global at the default global base 8. -/
theorem claim_C2_witness :
    getGlobalAddress 8 ⟨[], [], [], [("g", (0, 64))]⟩ "g" =
      some (0 + 8 + regionsBefore 64 ⟨[], [], [], [("g", (0, 64))]⟩) ∧
    (0 + 8 + regionsBefore 64 ⟨[], [], [], [("g", (0, 64))]⟩) % (64 / 8) = 0 :=
  claim_C2 [GlobalOp.alloc "g"] ⟨[], [], [], [("g", (0, 64))]⟩ 8 rfl rfl
    "g" 0 64 rfl

/-! ## Function dispatch tables (JSWriter::ensureFunctionTable /
JSWriter::getFunctionIndex / printModuleBody table emission) -/

/-- The data of an indexable IR function as `getFunctionIndex` consumes
it: its mangled JS name (`getJSName(F)`), its signature letter code
(`getFunctionSignature`), and `F->getAlignment()`. -/
structure FuncDecl where
  name : String
  sig : String
  align : Nat

/-- Mutable state of the function-pointer indexer: `FunctionTables`
(signature to table), `IndexedFunctions` (name to index), and
`NextFunctionIndex` (used with the no-aliasing option; the JSWriter
constructor initializes it to 0). -/
structure TablesState where
  functionTables : List (String × List String)
  indexedFunctions : List (String × Nat)
  nextFunctionIndex : Nat

/-- `MinSize` in `ensureFunctionTable`:
`ReservedFunctionPointers ? 2*(ReservedFunctionPointers+1) : 1`. -/
def minTableSize (reserved : Nat) : Nat :=
  if reserved ≠ 0 then 2*(reserved+1) else 1

/-- Model of `ensureFunctionTable`'s padding loop
(`while (Table.size() < MinSize) Table.push_back("0");`) applied to the
table found (or default-created empty) for the signature. -/
def ensureFunctionTable (reserved : Nat) (t : List String) : List String :=
  t ++ List.replicate (minTableSize reserved - t.length) "0"

/-- The no-aliasing padding loop of `getFunctionIndex`
(`while (Table.size() < NextFunctionIndex) Table.push_back("0");`). -/
def padToNext (noAliasing : Bool) (next : Nat) (t : List String) :
    List String :=
  if noAliasing then t ++ List.replicate (next - t.length) "0" else t

/-- The alignment padding loop of `getFunctionIndex`
(`while (Table.size() % Alignment) Table.push_back("0");`). -/
def alignPad (align : Nat) (t : List String) : List String :=
  t ++ List.replicate ((align - t.length % align) % align) "0"

/-- Model of `JSWriter::getFunctionIndex`, returning the dispatch index
and the updated state.  The alignment expression models the C of the
source, `unsigned Alignment = F->getAlignment() || 1;`, which is a
logical-or and hence always 1 (as the source comment itself notes). -/
def getFunctionIndex (reserved : Nat) (noAliasing : Bool) (f : FuncDecl)
    (s : TablesState) : Nat × TablesState :=
  match assocLookup s.indexedFunctions f.name with
  | some i => (i, s)
  | none =>
    let t0 := (assocLookup s.functionTables f.sig).getD []
    let t1 := ensureFunctionTable reserved t0
    let t2 := padToNext noAliasing s.nextFunctionIndex t1
    let alignment : Nat := if f.align ≠ 0 ∨ (1:Nat) ≠ 0 then 1 else 0
    let t3 := alignPad alignment t2
    let idx := t3.length
    let t4 := t3 ++ [f.name]
    (idx,
     { functionTables := (f.sig, t4) :: s.functionTables,
       indexedFunctions := (f.name, idx) :: s.indexedFunctions,
       nextFunctionIndex := if noAliasing then idx + 1 else s.nextFunctionIndex })

/-- The indexer state reached after a sequence of `getFunctionIndex`
calls. -/
def applyCalls (reserved : Nat) (noAliasing : Bool) (fs : List FuncDecl)
    (s : TablesState) : TablesState :=
  fs.foldl (fun s f => (getFunctionIndex reserved noAliasing f s).2) s

/-- The empty initial indexer state. -/
def initialTables : TablesState := ⟨[], [], 0⟩

/-- Model of the emission padding loop in `printModuleBody`
(`unsigned Size = 1; while (Size < Table.size()) Size <<= 1;`), with the
iteration count bounded by the fuel (the loop runs at most `n` times
since `Size` at least doubles from 1). -/
def pow2CeilGo : Nat → Nat → Nat → Nat
  | 0, size, _ => size
  | fuel+1, size, n => if size < n then pow2CeilGo fuel (size*2) n else size

/-- The emitted table length for a logical length `n`. -/
def pow2Ceil (n : Nat) : Nat := pow2CeilGo n 1 n

/-- Model of table finalization at emission: right-pad with `"0"` to the
power-of-two size. -/
def emitTable (t : List String) : List String :=
  t ++ List.replicate (pow2Ceil t.length - t.length) "0"

/-- Characterization of the emission padding loop: starting from a power
of two `2^k`, it returns the smallest power of two that is at least `n`
(and at least `2^k`). -/
theorem pow2CeilGo_char :
    ∀ (fuel k n : Nat), n ≤ 2^k + fuel →
      ∃ j, pow2CeilGo fuel (2^k) n = 2^(k+j) ∧ n ≤ 2^(k+j) ∧
        (j = 0 ∨ 2^(k+j-1) < n) := by
  intro fuel
  induction fuel with
  | zero =>
    intro k n hn
    refine ⟨0, rfl, by simpa using hn, Or.inl rfl⟩
  | succ f ih =>
    intro k n hn
    by_cases hlt : 2^k < n
    · have hk1 : (1:Nat) ≤ 2^k := Nat.one_le_two_pow
      have h2 : 2^(k+1) = 2 * 2^k := by ring
      rcases ih (k+1) n (by omega) with ⟨j, hgo, hle, hmin⟩
      refine ⟨j+1, ?_, ?_, ?_⟩
      · simp only [pow2CeilGo, if_pos hlt]
        have : 2^k * 2 = 2^(k+1) := by ring
        rw [this, hgo]
        congr 1
        omega
      · have : k + 1 + j = k + (j+1) := by omega
        rw [← this]
        exact hle
      · rcases hmin with hj0 | hmin
        · right
          subst hj0
          simpa using hlt
        · right
          have : k + 1 + j - 1 = k + (j+1) - 1 := by omega
          rw [← this]
          exact hmin
    · refine ⟨0, ?_, by simpa using Nat.le_of_not_lt hlt, Or.inl rfl⟩
      simp only [pow2CeilGo, if_neg hlt, Nat.add_zero]

/-- The emitted table length is the smallest power of two that is at
least the logical table length. -/
theorem pow2Ceil_spec (n : Nat) :
    ∃ j, pow2Ceil n = 2^j ∧ n ≤ 2^j ∧ ∀ i, n ≤ 2^i → 2^j ≤ 2^i := by
  have h1 : (2:Nat)^0 = 1 := by norm_num
  rcases pow2CeilGo_char n 0 n (by omega) with ⟨j, hgo, hle, hmin⟩
  rw [Nat.zero_add] at hgo hle
  refine ⟨j, ?_, hle, ?_⟩
  · simpa [pow2Ceil, h1] using hgo
  · intro i hi
    rcases hmin with hj0 | hmin
    · subst hj0
      simpa using Nat.one_le_two_pow
    · simp only [Nat.zero_add] at hmin
      have hji : j - 1 < i := by
        by_contra hcon
        have : 2^i ≤ 2^(j-1) := Nat.pow_le_pow_right (by omega) (by omega)
        omega
      exact Nat.pow_le_pow_right (by omega) (by omega)

/-- Table invariant: every cached dispatch index is at least 1, and every
table has length at least `2*(reserved+1)`, holds the placeholder `"0"`
in slot 0, and holds `"0"` in every slot below `2*reserved`. -/
def goodTables (reserved : Nat) (s : TablesState) : Prop :=
  (∀ p ∈ s.indexedFunctions, 1 ≤ p.2) ∧
  (∀ p ∈ s.functionTables,
    2*(reserved+1) ≤ p.2.length ∧
    p.2[0]? = some "0" ∧
    ∀ i, i < 2*reserved → p.2[i]? = some "0")

/-- Reading below the left part of an append stays in the left part. -/
theorem getElem?_append_left_str (l₁ l₂ : List String) (i : Nat)
    (h : i < l₁.length) : (l₁ ++ l₂)[i]? = l₁[i]? := by
  simp [List.getElem?_append, h]

/-- Zeros survive appending on the right. -/
theorem zeros_append (t u : List String) (k : Nat) (hk : k ≤ t.length)
    (hz : ∀ i, i < k → t[i]? = some "0") :
    ∀ i, i < k → (t ++ u)[i]? = some "0" := by
  intro i hi
  rw [getElem?_append_left_str _ _ _ (by omega)]
  exact hz i hi

/-- Every slot of a `"0"` pad reads `"0"`. -/
theorem zeros_replicate (n : Nat) :
    ∀ i, i < n → (List.replicate n ("0":String))[i]? = some "0" := by
  intro i hi
  simp [List.getElem?_replicate, hi]

/-- A fresh or looked-up table keeps the invariant facts below the
reserved area after `ensureFunctionTable`. -/
theorem ensureFunctionTable_zeros (reserved : Nat) (t0 : List String)
    (h0 : t0 = [] ∨ (2*(reserved+1) ≤ t0.length ∧ t0[0]? = some "0" ∧
      ∀ i, i < 2*reserved → t0[i]? = some "0")) :
    minTableSize reserved ≤ (ensureFunctionTable reserved t0).length ∧
    (ensureFunctionTable reserved t0)[0]? = some "0" ∧
    ∀ i, i < 2*reserved → (ensureFunctionTable reserved t0)[i]? = some "0" := by
  have hmin2 : 2*reserved < minTableSize reserved := by
    simp only [minTableSize]
    split <;> omega
  have hmin1 : 1 ≤ minTableSize reserved := by omega
  rcases h0 with h0 | ⟨hlen, h00, hz⟩
  · subst h0
    simp only [ensureFunctionTable, List.nil_append, List.length_nil,
      Nat.sub_zero, List.length_replicate]
    refine ⟨le_rfl, ?_, ?_⟩
    · exact zeros_replicate _ 0 (by omega)
    · intro i hi
      exact zeros_replicate _ i (by omega)
  · have hlen' : minTableSize reserved ≤ t0.length := by
      simp only [minTableSize]
      split <;> omega
    simp only [ensureFunctionTable]
    refine ⟨by simp only [List.length_append]; omega, ?_, ?_⟩
    · rw [getElem?_append_left_str _ _ _ (by omega)]
      exact h00
    · intro i hi
      rw [getElem?_append_left_str _ _ _ (by omega)]
      exact hz i hi

/-- The no-aliasing padding appends some number of `"0"` entries. -/
theorem padToNext_shape (noAliasing : Bool) (next : Nat) (t : List String) :
    ∃ k, padToNext noAliasing next t = t ++ List.replicate k "0" := by
  cases noAliasing with
  | false => exact ⟨0, by simp [padToNext]⟩
  | true => exact ⟨next - t.length, by simp [padToNext]⟩

/-- Alignment padding to 1 is the identity. -/
theorem alignPad_one (t : List String) : alignPad 1 t = t := by
  have h : (1 - t.length % 1) % 1 = 0 := by omega
  simp [alignPad, h]

/-- The always-1 alignment of the source. -/
theorem align_is_one (f : FuncDecl) :
    (if f.align ≠ 0 ∨ (1:Nat) ≠ 0 then 1 else 0) = 1 :=
  if_pos (Or.inr one_ne_zero)

/-- Shape of a fresh `getFunctionIndex` call: the returned index is the
length of the padded table, the new table is the padded table plus the
name. -/
theorem getFunctionIndex_fresh (reserved : Nat) (noAliasing : Bool)
    (f : FuncDecl) (s : TablesState)
    (hlook : assocLookup s.indexedFunctions f.name = none) :
    ∃ k,
      (getFunctionIndex reserved noAliasing f s).1 =
        (ensureFunctionTable reserved
          ((assocLookup s.functionTables f.sig).getD [])).length + k ∧
      (getFunctionIndex reserved noAliasing f s).2.functionTables =
        (f.sig, (ensureFunctionTable reserved
            ((assocLookup s.functionTables f.sig).getD []) ++
          List.replicate k "0") ++ [f.name]) :: s.functionTables ∧
      (getFunctionIndex reserved noAliasing f s).2.indexedFunctions =
        (f.name, (ensureFunctionTable reserved
          ((assocLookup s.functionTables f.sig).getD [])).length + k) ::
          s.indexedFunctions := by
  obtain ⟨k, hk⟩ := padToNext_shape noAliasing s.nextFunctionIndex
    (ensureFunctionTable reserved ((assocLookup s.functionTables f.sig).getD []))
  refine ⟨k, ?_, ?_, ?_⟩ <;>
    simp only [getFunctionIndex, hlook, align_is_one, alignPad_one, hk,
      List.length_append, List.length_replicate]

/-- One `getFunctionIndex` call preserves the table invariant, and the
index it returns is at least 1. -/
theorem getFunctionIndex_good (reserved : Nat) (noAliasing : Bool)
    (f : FuncDecl) (s : TablesState) (h : goodTables reserved s) :
    goodTables reserved (getFunctionIndex reserved noAliasing f s).2 ∧
    1 ≤ (getFunctionIndex reserved noAliasing f s).1 := by
  rcases h with ⟨hidx, htab⟩
  cases hlook : assocLookup s.indexedFunctions f.name with
  | some i =>
    refine ⟨⟨?_, ?_⟩, ?_⟩ <;> simp only [getFunctionIndex, hlook]
    · exact hidx
    · exact htab
    · exact hidx _ (assocLookup_mem _ _ _ hlook)
  | none =>
    have h0 : ((assocLookup s.functionTables f.sig).getD []) = [] ∨
        (2*(reserved+1) ≤ ((assocLookup s.functionTables f.sig).getD []).length ∧
         ((assocLookup s.functionTables f.sig).getD [])[0]? = some "0" ∧
         ∀ i, i < 2*reserved →
           ((assocLookup s.functionTables f.sig).getD [])[i]? = some "0") := by
      cases htl : assocLookup s.functionTables f.sig with
      | none => left; rfl
      | some t => right; exact htab _ (assocLookup_mem _ _ _ htl)
    rcases ensureFunctionTable_zeros reserved _ h0 with ⟨helen, he0, hez⟩
    have hmin2 : 2*reserved < minTableSize reserved := by
      simp only [minTableSize]; split <;> omega
    have hmin1 : 1 ≤ minTableSize reserved := by omega
    obtain ⟨k, hk1, hk2, hk3⟩ :=
      getFunctionIndex_fresh reserved noAliasing f s hlook
    have hT := helen
    set T := ensureFunctionTable reserved
      ((assocLookup s.functionTables f.sig).getD []) with hTdef
    constructor
    · constructor
      · intro p hp
        rw [hk3] at hp
        rcases List.mem_cons.mp hp with hp | hp
        · subst hp
          simp only
          omega
        · exact hidx p hp
      · intro p hp
        rw [hk2] at hp
        rcases List.mem_cons.mp hp with hp | hp
        · subst hp
          have hmin' : 2*(reserved+1) ≤ minTableSize reserved + 1 := by
            simp only [minTableSize]; split <;> omega
          refine ⟨?_, ?_, ?_⟩
          · simp only [List.length_append, List.length_replicate,
              List.length_singleton]
            omega
          · rw [getElem?_append_left_str _ _ _
              (by simp only [List.length_append, List.length_replicate]; omega)]
            rw [getElem?_append_left_str _ _ _ (by omega)]
            exact he0
          · intro i hi
            rw [getElem?_append_left_str _ _ _
              (by simp only [List.length_append, List.length_replicate]; omega)]
            rw [getElem?_append_left_str _ _ _ (by omega)]
            exact hez i hi
        · exact htab p hp
    · rw [hk1]
      omega

/-- The invariant holds in every reachable indexer state. -/
theorem applyCalls_good (reserved : Nat) (noAliasing : Bool) :
    ∀ (fs : List FuncDecl) (s0 : TablesState), goodTables reserved s0 →
      goodTables reserved (applyCalls reserved noAliasing fs s0) := by
  intro fs
  induction fs with
  | nil => intro s0 h0; exact h0
  | cons f rest ih =>
    intro s0 h0
    exact ih _ (getFunctionIndex_good reserved noAliasing f s0 h0).1

/-- C1: For every function-pointer dispatch table of signature S reachable
through a sequence of `getFunctionIndex` calls with R reserved runtime
slots, the table's length is at least `2*(R+1)`; when emitted its length
is the smallest power of two at least its logical length; and every entry
in slots `[0, 2*R)` is the placeholder `"0"` (nontrivial exactly when the
reserved-pointers option is set, i.e. R > 0). -/
theorem claim_C1 (reserved : Nat) (noAliasing : Bool) (fs : List FuncDecl)
    (sig : String) (t : List String)
    (hmem : (sig, t) ∈
      (applyCalls reserved noAliasing fs initialTables).functionTables) :
    2*(reserved+1) ≤ t.length ∧
    (∃ j, (emitTable t).length = 2^j ∧ t.length ≤ 2^j ∧
      ∀ i, t.length ≤ 2^i → 2^j ≤ 2^i) ∧
    (∀ i, i < 2*reserved → (emitTable t)[i]? = some "0") := by
  have hgood : goodTables reserved
      (applyCalls reserved noAliasing fs initialTables) :=
    applyCalls_good reserved noAliasing fs initialTables
      (by constructor <;> intro p hp <;> simp [initialTables] at hp)
  rcases hgood.2 (sig, t) hmem with ⟨hlen, h0, hz⟩
  have hlen' : 2*(reserved+1) ≤ t.length := hlen
  have hz' : ∀ i, i < 2*reserved → t[i]? = some "0" := hz
  rcases pow2Ceil_spec t.length with ⟨j, hp2, hle, hmin⟩
  refine ⟨hlen', ⟨j, ?_, hle, hmin⟩, ?_⟩
  · simp only [emitTable, List.length_append, List.length_replicate]
    omega
  · intro i hi
    simp only [emitTable]
    rw [getElem?_append_left_str _ _ _ (by omega)]
    exact hz' i hi

/-- Witness for C1: one function indexed with one reserved slot. -/
theorem claim_C1_witness :
    2*(1+1) ≤ (["0","0","0","0","_f"] : List String).length ∧
    (∃ j, (emitTable ["0","0","0","0","_f"]).length = 2^j ∧
      (["0","0","0","0","_f"] : List String).length ≤ 2^j ∧
      ∀ i, (["0","0","0","0","_f"] : List String).length ≤ 2^i →
        2^j ≤ 2^i) ∧
    (∀ i, i < 2*1 → (emitTable ["0","0","0","0","_f"])[i]? = some "0") :=
  claim_C1 1 false [⟨"_f", "ii", 0⟩] "ii" ["0","0","0","0","_f"] (by decide)

/-- C10: No function is ever assigned dispatch index 0 in any signature's
table: every table is created with minimum size at least 1 (slot 0 holding
the placeholder `"0"`) before any function is appended, `getFunctionIndex`
always appends at the current table end, and every returned index is at
least 1. -/
theorem claim_C10 (reserved : Nat) (noAliasing : Bool) (fs : List FuncDecl)
    (f : FuncDecl) :
    1 ≤ (getFunctionIndex reserved noAliasing f
      (applyCalls reserved noAliasing fs initialTables)).1 ∧
    (∀ p ∈ (applyCalls reserved noAliasing fs initialTables).functionTables,
      p.2[0]? = some "0") ∧
    (assocLookup (applyCalls reserved noAliasing fs
        initialTables).indexedFunctions f.name = none →
      ∃ u, (getFunctionIndex reserved noAliasing f
          (applyCalls reserved noAliasing fs initialTables)).2.functionTables =
        (f.sig, u ++ [f.name]) ::
          (applyCalls reserved noAliasing fs initialTables).functionTables ∧
        (getFunctionIndex reserved noAliasing f
          (applyCalls reserved noAliasing fs initialTables)).1 = u.length) := by
  have hgood : goodTables reserved
      (applyCalls reserved noAliasing fs initialTables) :=
    applyCalls_good reserved noAliasing fs initialTables
      (by constructor <;> intro p hp <;> simp [initialTables] at hp)
  refine ⟨(getFunctionIndex_good reserved noAliasing f _ hgood).2,
    fun p hp => (hgood.2 p hp).2.1, ?_⟩
  intro hlook
  obtain ⟨k, hk1, hk2, hk3⟩ :=
    getFunctionIndex_fresh reserved noAliasing f _ hlook
  refine ⟨ensureFunctionTable reserved ((assocLookup (applyCalls reserved
      noAliasing fs initialTables).functionTables f.sig).getD []) ++
      List.replicate k "0", hk2, ?_⟩
  rw [hk1]
  simp [List.length_append, List.length_replicate]

/-- Witness for C10: the first function of a fresh signature gets index 1
(slot 0 keeps the placeholder), appended at the table end. -/
theorem claim_C10_witness :
    1 ≤ (getFunctionIndex 0 false ⟨"_g", "v", 0⟩
      (applyCalls 0 false [] initialTables)).1 ∧
    (∃ u, (getFunctionIndex 0 false ⟨"_g", "v", 0⟩
        (applyCalls 0 false [] initialTables)).2.functionTables =
      ("v", u ++ ["_g"]) ::
        (applyCalls 0 false [] initialTables).functionTables ∧
      (getFunctionIndex 0 false ⟨"_g", "v", 0⟩
        (applyCalls 0 false [] initialTables)).1 = u.length) :=
  ⟨(claim_C10 0 false [] ⟨"_g", "v", 0⟩).1,
   (claim_C10 0 false [] ⟨"_g", "v", 0⟩).2.2 rfl⟩

/-! ## Constant cross-reference resolution (JSWriter::getConstAsOffset /
JSWriter::resolveFully / JSWriter::getBlockAddress) -/

/-- The constants `getConstAsOffset` dispatches on, after IR abstraction:
a `Function`, a `BlockAddress` (function name and basic-block id), a
`GlobalVariable` (carrying its mangled JS name `getOpName(V)` and its IR
name `V->getName()`, plus whether it has an initializer), and the two
wrapper forms stripped by `resolveFully` (a `GlobalAlias` and a constant
expression whose operand 0 is followed). -/
inductive ConstRef where
  | funcRef (f : FuncDecl)
  | blockAddr (fn bb : String)
  | globalVar (jsName irName : String) (hasInit : Bool)
  | aliasOf (v : ConstRef)
  | exprWrap (v : ConstRef)

/-- Model of `JSWriter::resolveFully`: strip alias and constant-expression
wrappers until none remain. -/
def resolveFully : ConstRef → ConstRef
  | ConstRef.aliasOf v => resolveFully v
  | ConstRef.exprWrap v => resolveFully v
  | ConstRef.funcRef f => ConstRef.funcRef f
  | ConstRef.blockAddr fn bb => ConstRef.blockAddr fn bb
  | ConstRef.globalVar a b c => ConstRef.globalVar a b c

/-- Model of the per-function part of `JSWriter::getBlockAddress`: the
first reference to a block assigns it the next index, starting from 0
(`Blocks[BB] = Blocks.size()`). -/
def getBlockAddressIn (blocks : List (String × Nat)) (bb : String) :
    Nat × List (String × Nat) :=
  match assocLookup blocks bb with
  | some i => (i, blocks)
  | none => (blocks.length, (bb, blocks.length) :: blocks)

/-- Model of `JSWriter::getBlockAddress(BA)`: look up the per-function
block index map (created on demand) and resolve the block within it. -/
def getBlockAddress (m : List (String × List (String × Nat)))
    (fn bb : String) : Nat × List (String × List (String × Nat)) :=
  let blocks := (assocLookup m fn).getD []
  let r := getBlockAddressIn blocks bb
  (r.1, (fn, r.2) :: m)

/-- `std::set` insertion (`Externals.insert(Name)`). -/
def insertName (n : String) (l : List String) : List String :=
  if n ∈ l then l else n :: l

/-- Combined writer state touched by `getConstAsOffset`. -/
structure ConstWriterState where
  tables : TablesState
  globals : GlobalsState
  blockAddresses : List (String × List (String × Nat))
  externals : List String
  postSets : String

/-- Model of `JSWriter::getConstAsOffset`.  `absoluteTarget` is the
absolute heap address being written (an `unsigned`); `>> 2` is division
by 4.  A fatal `getGlobalAddress` failure propagates as `none`; the
wrapper constructors are unreachable after `resolveFully` and map to
`none`. -/
def getConstAsOffset (reserved : Nat) (noAliasing : Bool) (globalBase : Nat)
    (v : ConstRef) (absoluteTarget : Nat) (st : ConstWriterState) :
    Option (Nat × ConstWriterState) :=
  match resolveFully v with
  | ConstRef.funcRef f =>
    let r := getFunctionIndex reserved noAliasing f st.tables
    some (r.1, { st with tables := r.2 })
  | ConstRef.blockAddr fn bb =>
    let r := getBlockAddress st.blockAddresses fn bb
    some (r.1, { st with blockAddresses := r.2 })
  | ConstRef.globalVar jsName irName hasInit =>
    if hasInit then
      match getGlobalAddress globalBase st.globals irName with
      | none => none
      | some a => some (a, st)
    else
      some (0, { st with
        externals := insertName jsName st.externals,
        postSets := st.postSets ++
          ("HEAP32[" ++ toString (absoluteTarget / 4) ++ "] = " ++
            jsName ++ ";") })
  | _ => none

/-- C3: `getConstAsOffset` on an undefined external global returns 0 and
appends to the deferred PostSets string the assignment
`HEAP32[a] = name;` with `a` the absolute target address shifted right by
2 and `name` the external's mangled name; a function constant yields its
dispatch index, a block-address constant its block index, a defined
global its absolute global address; and alias/constant-expression
wrappers are resolved away first. -/
theorem claim_C3 (reserved globalBase : Nat) (noAliasing : Bool)
    (st : ConstWriterState) (target : Nat) (jsName irName fn bb : String)
    (f : FuncDecl) (v : ConstRef) :
    (getConstAsOffset reserved noAliasing globalBase
        (ConstRef.globalVar jsName irName false) target st =
      some (0, { st with
        externals := insertName jsName st.externals,
        postSets := st.postSets ++
          ("HEAP32[" ++ toString (target / 4) ++ "] = " ++ jsName ++ ";") })) ∧
    (getConstAsOffset reserved noAliasing globalBase (ConstRef.funcRef f)
        target st =
      some ((getFunctionIndex reserved noAliasing f st.tables).1,
        { st with tables :=
          (getFunctionIndex reserved noAliasing f st.tables).2 })) ∧
    (getConstAsOffset reserved noAliasing globalBase
        (ConstRef.blockAddr fn bb) target st =
      some ((getBlockAddress st.blockAddresses fn bb).1,
        { st with blockAddresses :=
          (getBlockAddress st.blockAddresses fn bb).2 })) ∧
    (∀ a, getGlobalAddress globalBase st.globals irName = some a →
      getConstAsOffset reserved noAliasing globalBase
        (ConstRef.globalVar jsName irName true) target st = some (a, st)) ∧
    (getConstAsOffset reserved noAliasing globalBase
        (ConstRef.aliasOf (ConstRef.exprWrap v)) target st =
      getConstAsOffset reserved noAliasing globalBase v target st) := by
  refine ⟨rfl, rfl, rfl, ?_, ?_⟩
  · intro a ha
    simp only [getConstAsOffset, resolveFully, if_pos rfl, ha, if_true]
  · simp only [getConstAsOffset, resolveFully]

/-- Witness for C3: an external reference written at absolute address 100
records `HEAP32[25] = _ext;`, and a defined global resolves to its
absolute address. -/
theorem claim_C3_witness :
    (getConstAsOffset 0 false 8 (ConstRef.globalVar "_ext" "ext" false) 100
        ⟨initialTables, ⟨[], [], [], [("g", (0, 64))]⟩, [], [], ""⟩ =
      some (0, ⟨initialTables, ⟨[], [], [], [("g", (0, 64))]⟩, [],
        ["_ext"], "HEAP32[25] = _ext;"⟩)) ∧
    (getConstAsOffset 0 false 8 (ConstRef.globalVar "_g" "g" true) 100
        ⟨initialTables, ⟨[], [], [], [("g", (0, 64))]⟩, [], [], ""⟩ =
      some (8, ⟨initialTables, ⟨[], [], [], [("g", (0, 64))]⟩, [], [], ""⟩)) :=
  ⟨(claim_C3 0 8 false ⟨initialTables, ⟨[], [], [], [("g", (0, 64))]⟩,
      [], [], ""⟩ 100 "_ext" "ext" "" "" ⟨"", "", 0⟩ (ConstRef.funcRef ⟨"", "", 0⟩)).1,
   (claim_C3 0 8 false ⟨initialTables, ⟨[], [], [], [("g", (0, 64))]⟩,
      [], [], ""⟩ 100 "_g" "g" "" "" ⟨"", "", 0⟩ (ConstRef.funcRef ⟨"", "", 0⟩)).2.2.2.1
      8 rfl⟩

/-! ## Phi-edge prelude generation (JSWriter::getPhiCode) -/

/-- A phi node of the destination block together with its incoming value
from the source block of the edge: `name` is `getJSName(P)`, `rhs` is
`getValueAsStr` of the incoming value (pointer casts stripped), and
`inTargetBlock` records whether that value is an `Instruction` whose
parent is the destination block (the first half of the source's
dependency test `VI->getParent() == To && PhiVars.count(vname)`). -/
structure PhiEntry where
  name : String
  rhs : String
  inTargetBlock : Bool
deriving DecidableEq

/-- Result of one iteration of the emission `for` loop over the whole
`assigns` map: the entries still unemitted (in order), the surviving
dependency keys, the `pre`/`post` code appended during the iteration, and
the final value of the `emitted` flag. -/
structure PhiPassOut where
  remaining : List (String × String)
  deps : List String
  pre : String
  post : String
  emitted : Bool

/-- Model of one full `for (I = assigns.begin(); ...)` sweep of
`getPhiCode`'s emission loop.  An entry is emitted when it has no
dependency, or when nothing has been emitted yet in this sweep and the
entry is the last one left (`!emitted && I == assigns.end()`), in which
case the cycle is broken with a `<name>$phi` temporary: the temporary's
assignment goes to `pre`, the phi assignment (reading the temporary) to
`post`, and the entry's dependency is erased. -/
def phiPass : List (String × String) → List String → Bool → PhiPassOut
  | [], deps, em => ⟨[], deps, "", "", em⟩
  | (n, cv) :: rest, deps, em =>
    if n ∉ deps ∨ (em = false ∧ rest = []) then
      if n ∈ deps then
        let r := phiPass rest (deps.erase n) true
        ⟨r.remaining, r.deps,
         ((n ++ "$phi") ++ " = " ++ cv ++ ";") ++ r.pre,
         (n ++ " = " ++ (n ++ "$phi") ++ ";") ++ r.post, r.emitted⟩
      else
        let r := phiPass rest deps true
        ⟨r.remaining, r.deps, r.pre, (n ++ " = " ++ cv ++ ";") ++ r.post,
         r.emitted⟩
    else
      let r := phiPass rest deps em
      ⟨(n, cv) :: r.remaining, r.deps, r.pre, r.post, r.emitted⟩

/-- Model of the outer `while (assigns.size() > 0)` loop; the fuel is the
number of entries, which suffices because every sweep of a non-empty map
emits at least one entry. -/
def phiEmitGo : Nat → List (String × String) → List String → String × String
  | 0, _, _ => ("", "")
  | fuel+1, assigns, deps =>
    if assigns = [] then ("", "")
    else
      let r := phiPass assigns deps false
      let rest := phiEmitGo fuel r.remaining r.deps
      (r.pre ++ rest.1, r.post ++ rest.2)

/-- The dependency keys computed by `getPhiCode`: entries whose incoming
value is an instruction of the destination block whose lowered name is a
phi variable of that block. -/
def depsOf (phis : List PhiEntry) : List String :=
  (phis.filter (fun e =>
    e.inTargetBlock && (phis.map (fun x => x.name)).contains e.rhs)).map
    (fun e => e.name)

/-- Model of `JSWriter::getPhiCode` on the abstracted phi list: build the
assignment and dependency maps, run the emission loop, and return
`pre + post`. -/
def getPhiCode (phis : List PhiEntry) : String :=
  let assigns := phis.map (fun e => (e.name, e.rhs))
  let r := phiEmitGo assigns.length assigns (depsOf phis)
  r.1 ++ r.2

/-- A statement occurs somewhere in an emitted code string. -/
def containsStmt (s x : String) : Prop := ∃ a b, s = a ++ x ++ b

/-- A statement at the front occurs. -/
theorem containsStmt_here (x t : String) : containsStmt (x ++ t) x := by
  refine ⟨"", t, ?_⟩
  have h : ("" : String) ++ x = x := by simp
  rw [h]

/-- Occurrence survives appending on the right. -/
theorem containsStmt_appendR (s t x : String) (h : containsStmt s x) :
    containsStmt (s ++ t) x := by
  rcases h with ⟨a, b, rfl⟩
  exact ⟨a, b ++ t, by rw [String.append_assoc (a ++ x) b t]⟩

/-- Occurrence survives appending on the left. -/
theorem containsStmt_appendL (s t x : String) (h : containsStmt s x) :
    containsStmt (t ++ s) x := by
  rcases h with ⟨a, b, rfl⟩
  refine ⟨t ++ a, b, ?_⟩
  simp [String.append_assoc]

/-- The remaining entries of a sweep form a sublist of its input. -/
theorem phiPass_remaining_sublist :
    ∀ (l : List (String × String)) (deps : List String) (em : Bool),
      (phiPass l deps em).remaining.Sublist l := by
  intro l
  induction l with
  | nil => intro deps em; simp [phiPass]
  | cons p rest ih =>
    intro deps em
    rcases p with ⟨n, cv⟩
    simp only [phiPass]
    split
    · split
      · exact (ih _ _).trans (List.sublist_cons_self _ _)
      · exact (ih _ _).trans (List.sublist_cons_self _ _)
    · exact (ih _ _).cons₂ _

/-- A sweep of a non-empty map emits at least one entry. -/
theorem phiPass_progress :
    ∀ (l : List (String × String)) (deps : List String), l ≠ [] →
      (phiPass l deps false).remaining.length < l.length := by
  intro l
  induction l with
  | nil => intro deps h; exact absurd rfl h
  | cons p rest ih =>
    intro deps _
    rcases p with ⟨n, cv⟩
    simp only [phiPass]
    split
    · split
      · have := (phiPass_remaining_sublist rest (deps.erase n) true).length_le
        simp only [List.length_cons]
        omega
      · have := (phiPass_remaining_sublist rest deps true).length_le
        simp only [List.length_cons]
        omega
    · rename_i hcond
      have hrest : rest ≠ [] := fun hr => hcond (Or.inr ⟨by trivial, hr⟩)
      have := ih deps hrest
      simp only [List.length_cons]
      omega

/-- A sweep only erases dependency keys of entries it visits: any other
name's dependency status is unchanged. -/
theorem phiPass_deps_stable :
    ∀ (l : List (String × String)) (deps : List String) (em : Bool)
      (n : String), n ∉ l.map Prod.fst →
      (n ∈ (phiPass l deps em).deps ↔ n ∈ deps) := by
  intro l
  induction l with
  | nil => intro deps em n _; simp [phiPass]
  | cons p rest ih =>
    intro deps em n hn
    rcases p with ⟨m, w⟩
    simp only [List.map_cons, List.mem_cons] at hn
    push_neg at hn
    rcases hn with ⟨hnm, hn⟩
    simp only [phiPass]
    split
    · split
      · rename_i hmd
        rw [ih (deps.erase m) true n hn]
        exact List.mem_erase_of_ne hnm
      · exact ih deps true n hn
    · exact ih deps em n hn

/-- Per-sweep emission: every entry of the map either survives untouched
(with its dependency status intact) or has been emitted during the sweep
with exactly the statements the source writes for it (the `<name>$phi`
temporary form for entries with a dependency, the direct assignment
otherwise). -/
theorem phiPass_emits :
    ∀ (l : List (String × String)) (deps : List String) (em : Bool),
      (l.map Prod.fst).Nodup →
      ∀ n cv, (n, cv) ∈ l →
        ((n, cv) ∈ (phiPass l deps em).remaining ∧
          (n ∈ (phiPass l deps em).deps ↔ n ∈ deps)) ∨
        (n ∈ deps ∧
          containsStmt (phiPass l deps em).pre
            (((n ++ "$phi") ++ " = " ++ cv ++ ";")) ∧
          containsStmt (phiPass l deps em).post
            ((n ++ " = " ++ (n ++ "$phi") ++ ";"))) ∨
        (n ∉ deps ∧
          containsStmt (phiPass l deps em).post
            ((n ++ " = " ++ cv ++ ";"))) := by
  intro l
  induction l with
  | nil => intro deps em _ n cv hmem; simp at hmem
  | cons p rest ih =>
    intro deps em hnodup n cv hmem
    rcases p with ⟨m, w⟩
    simp only [List.map_cons, List.nodup_cons] at hnodup
    rcases hnodup with ⟨hm, hrestnodup⟩
    rcases List.mem_cons.mp hmem with hhead | htail
    · -- the entry is the head of the sweep
      have h1 : n = m := congrArg Prod.fst hhead
      have h2 : cv = w := congrArg Prod.snd hhead
      subst h1
      subst h2
      simp only [phiPass]
      split
      · split
        · rename_i hdep
          right; left
          exact ⟨hdep, containsStmt_here _ _, containsStmt_here _ _⟩
        · rename_i hndep
          right; right
          exact ⟨hndep, containsStmt_here _ _⟩
      · left
        refine ⟨List.mem_cons_self _ _, ?_⟩
        exact phiPass_deps_stable rest deps em n hm
    · -- the entry is further down
      have hnm : n ≠ m := by
        intro h
        exact hm (h ▸ List.mem_map_of_mem Prod.fst htail)
      simp only [phiPass]
      split
      · split
        · -- head emitted through the temporary path
          rcases ih (deps.erase m) true hrestnodup n cv htail with
            ⟨hmem', hiff⟩ | ⟨hd, hpre, hpost⟩ | ⟨hnd, hpost⟩
          · left
            exact ⟨hmem', hiff.trans (List.mem_erase_of_ne hnm)⟩
          · right; left
            refine ⟨(List.mem_erase_of_ne hnm).mp hd, ?_, ?_⟩
            · exact containsStmt_appendL _ _ _ hpre
            · exact containsStmt_appendL _ _ _ hpost
          · right; right
            refine ⟨fun h => hnd ((List.mem_erase_of_ne hnm).mpr h), ?_⟩
            exact containsStmt_appendL _ _ _ hpost
        · -- head emitted directly
          rcases ih deps true hrestnodup n cv htail with
            ⟨hmem', hiff⟩ | ⟨hd, hpre, hpost⟩ | ⟨hnd, hpost⟩
          · left
            exact ⟨hmem', hiff⟩
          · right; left
            exact ⟨hd, hpre, containsStmt_appendL _ _ _ hpost⟩
          · right; right
            exact ⟨hnd, containsStmt_appendL _ _ _ hpost⟩
      · -- head skipped
        rcases ih deps em hrestnodup n cv htail with
          ⟨hmem', hiff⟩ | ⟨hd, hpre, hpost⟩ | ⟨hnd, hpost⟩
        · left
          exact ⟨List.mem_cons_of_mem _ hmem', hiff⟩
        · right; left
          exact ⟨hd, hpre, hpost⟩
        · right; right
          exact ⟨hnd, hpost⟩

/-- Full-loop emission: with sufficient fuel, every entry is eventually
emitted; entries with a dependency get their temporary assigned in the
accumulated `pre` and their phi assignment (reading the temporary) in the
accumulated `post`; entries without get their direct assignment in
`post`. -/
theorem phiEmitGo_emits :
    ∀ (fuel : Nat) (l : List (String × String)) (deps : List String),
      l.length ≤ fuel → (l.map Prod.fst).Nodup →
      ∀ n cv, (n, cv) ∈ l →
        (n ∈ deps →
          containsStmt (phiEmitGo fuel l deps).1
            (((n ++ "$phi") ++ " = " ++ cv ++ ";")) ∧
          containsStmt (phiEmitGo fuel l deps).2
            ((n ++ " = " ++ (n ++ "$phi") ++ ";"))) ∧
        (n ∉ deps →
          containsStmt (phiEmitGo fuel l deps).2
            ((n ++ " = " ++ cv ++ ";"))) := by
  intro fuel
  induction fuel with
  | zero =>
    intro l deps hlen _ n cv hmem
    have : l = [] := List.eq_nil_of_length_eq_zero (by omega)
    subst this
    simp at hmem
  | succ fuel ih =>
    intro l deps hlen hnodup n cv hmem
    have hl : l ≠ [] := List.ne_nil_of_mem hmem
    simp only [phiEmitGo, if_neg hl]
    rcases phiPass_emits l deps false hnodup n cv hmem with
      ⟨hmem', hiff⟩ | ⟨hd, hpre, hpost⟩ | ⟨hnd, hpost⟩
    · -- survived the sweep: recurse
      have hsub := phiPass_remaining_sublist l deps false
      have hlen' : (phiPass l deps false).remaining.length ≤ fuel := by
        have := phiPass_progress l deps hl
        omega
      have hnodup' : ((phiPass l deps false).remaining.map Prod.fst).Nodup :=
        hnodup.sublist (hsub.map Prod.fst)
      have hrec := ih (phiPass l deps false).remaining
        (phiPass l deps false).deps hlen' hnodup' n cv hmem'
      constructor
      · intro hdep
        have hdep' := hiff.mpr hdep
        exact ⟨containsStmt_appendL _ _ _ (hrec.1 hdep').1,
               containsStmt_appendL _ _ _ (hrec.1 hdep').2⟩
      · intro hndep
        have hndep' := fun h => hndep (hiff.mp h)
        exact containsStmt_appendL _ _ _ (hrec.2 hndep')
    · -- emitted in this sweep with a temporary
      constructor
      · intro _
        exact ⟨containsStmt_appendR _ _ _ hpre, containsStmt_appendR _ _ _ hpost⟩
      · intro hndep
        exact absurd hd hndep
    · -- emitted in this sweep directly
      constructor
      · intro hdep
        exact absurd hdep hnd
      · intro _
        exact containsStmt_appendR _ _ _ hpost

/-- With no duplicate phi names, a phi's name is a dependency key exactly
when its incoming value is an instruction of the destination block whose
lowering is one of the block's phi names. -/
theorem mem_depsOf (phis : List PhiEntry)
    (hnodup : (phis.map (fun e => e.name)).Nodup) (e : PhiEntry)
    (he : e ∈ phis) :
    e.name ∈ depsOf phis ↔
      (e.inTargetBlock = true ∧ e.rhs ∈ phis.map (fun x => x.name)) := by
  constructor
  · intro h
    rcases List.mem_map.mp h with ⟨e', he', hname⟩
    rcases List.mem_filter.mp he' with ⟨he'mem, hcond⟩
    have : e' = e := List.inj_on_of_nodup_map hnodup he'mem he hname
    subst this
    simpa using hcond
  · intro ⟨h1, h2⟩
    refine List.mem_map_of_mem _ (List.mem_filter.mpr ⟨he, ?_⟩)
    simpa using And.intro h1 h2

/-- C8: For every phi node of a destination block with incoming value `v`
from predecessor `P`, the phi-prelude code generated for the edge from `P`
contains an assignment to the phi's name whose right-hand side is the
lowering of `v`; when that lowering is another phi-target of the same
destination block (a cyclic dependency), a temporary named `<name>$phi`
is introduced to break the cycle, assigned in the prelude part that
precedes all the phi assignments, so it is assigned before the phi
assignment that reads it. -/
theorem claim_C8 (phis : List PhiEntry)
    (hnodup : (phis.map (fun e => e.name)).Nodup) (e : PhiEntry)
    (he : e ∈ phis) :
    (¬(e.inTargetBlock = true ∧ e.rhs ∈ phis.map (fun x => x.name)) →
      containsStmt (getPhiCode phis) (e.name ++ " = " ++ e.rhs ++ ";")) ∧
    ((e.inTargetBlock = true ∧ e.rhs ∈ phis.map (fun x => x.name)) →
      ∃ pre post, getPhiCode phis = pre ++ post ∧
        containsStmt pre ((e.name ++ "$phi") ++ " = " ++ e.rhs ++ ";") ∧
        containsStmt post (e.name ++ " = " ++ (e.name ++ "$phi") ++ ";")) := by
  have hkeys : ((phis.map (fun e => (e.name, e.rhs))).map Prod.fst).Nodup := by
    rw [List.map_map]
    exact hnodup
  have hmem : (e.name, e.rhs) ∈ phis.map (fun e => (e.name, e.rhs)) :=
    List.mem_map_of_mem _ he
  have hlen : (phis.map (fun e => (e.name, e.rhs))).length ≤
      (phis.map (fun e => (e.name, e.rhs))).length := le_rfl
  have hmain := phiEmitGo_emits (phis.map (fun e => (e.name, e.rhs))).length
    (phis.map (fun e => (e.name, e.rhs))) (depsOf phis) hlen hkeys
    e.name e.rhs hmem
  constructor
  · intro hnd
    have hnd' : e.name ∉ depsOf phis := fun h =>
      hnd ((mem_depsOf phis hnodup e he).mp h)
    exact containsStmt_appendL _ _ _ (hmain.2 hnd')
  · intro hd
    have hd' : e.name ∈ depsOf phis := (mem_depsOf phis hnodup e he).mpr hd
    obtain ⟨hp1, hp2⟩ := hmain.1 hd'
    exact ⟨_, _, rfl, hp1, hp2⟩

/-- Witness for C8 at the two-phi swap cycle `$x ← $y`, `$y ← $x`. -/
theorem claim_C8_witness :
    ∃ pre post,
      getPhiCode [⟨"$x", "$y", true⟩, ⟨"$y", "$x", true⟩] = pre ++ post ∧
      containsStmt pre (("$x" ++ "$phi") ++ " = " ++ "$y" ++ ";") ∧
      containsStmt post ("$x" ++ " = " ++ ("$x" ++ "$phi") ++ ";") :=
  (claim_C8 [⟨"$x", "$y", true⟩, ⟨"$y", "$x", true⟩] (by decide)
    ⟨"$x", "$y", true⟩ (by decide)).2 (by constructor <;> decide)
